import Mathlib

/-!
# Job control of the tiny shell `tsh` (src/workingshell.c)

A shallow embedding of the job table of `workingshell.c` and of the code that
mutates it (`eval`, `waitfg`, `sigchld_handler`), followed by theorems about it.

Conventions of the embedding.

* C `int` and `pid_t` values are integers (`Int`).  The only arithmetic the job
  code performs is `nextjid++` and `maxjid(jobs)+1`; both results are reduced to
  the 32-bit two's complement range by `wrapInt`, as the compiled code does.
* `struct job_t jobs[MAXJOBS]` is a list of slots, slot `i` of the array being
  element `i` of the list; the shell's own table is the 16-element one built by
  `initjobs`.  A loop `for (i = 0; i < MAXJOBS; i++)` is a left-to-right scan.
* A C string is the text before its terminator; `strcpy` copies that text (every
  command line handed to `addjob` comes from `fgets(cmdline, MAXLINE, stdin)`,
  so it fits the `MAXLINE` buffer) and `cmdline[0] = 0` makes it empty.
* `printf` appends to the text written so far; functions that print return the
  text they wrote.
* The globals `jobs`, `nextjid` and `verbose` are passed explicitly.
-/

set_option maxRecDepth 100000

namespace Tsh

/-! ## Constants and data model -/

/-- Capacity of the job table: `#define MAXJOBS 16`. -/
def MAXJOBS : Nat := 16

/-- Job state `UNDEF`. -/
def UNDEF : Int := 0
/-- Job state `FG`: running in the foreground. -/
def FG : Int := 1
/-- Job state `BG`: running in the background. -/
def BG : Int := 2
/-- Job state `ST`: stopped. -/
def ST : Int := 3

/-- Largest value of a C `int`: `INT_MAX` of `<limits.h>`. -/
def INT_MAX : Int := 2147483647

/-- The value a 32-bit `int` holds after an addition whose exact result is `x`:
`x` reduced modulo `2^32` into `-2^31 .. 2^31 - 1`. -/
def wrapInt (x : Int) : Int :=
  (x + 2147483648) % 4294967296 - 2147483648

/-- One slot of the table: `struct job_t`. -/
structure job_t where
  pid : Int
  jid : Int
  state : Int
  cmdline : String
deriving DecidableEq

/-- The globals the job code reads and writes: `jobs`, `nextjid`, `verbose`. -/
structure Shell where
  jobs : List job_t
  nextjid : Int
  verbose : Bool
deriving DecidableEq

/-- Index of the first slot satisfying `p`, scanning from slot 0: the common shape
`for (i = 0; i < MAXJOBS; i++) if (p(jobs[i])) ...` of the table loops. -/
def scan (p : job_t → Bool) : List job_t → Option Nat
  | [] => none
  | j :: rest => if p j then some 0 else (scan p rest).map (fun i => i + 1)

/-- In-place update of slot `i` through a pointer `&jobs[i]`. -/
def update (jobs : List job_t) (i : Nat) (f : job_t → job_t) : List job_t :=
  match jobs[i]? with
  | some j => jobs.set i (f j)
  | none => jobs

/-- The slot a pointer returned by `getjobpid` or `getjobjid` points to. -/
def deref (jobs : List job_t) : Option Nat → Option job_t
  | some i => jobs[i]?
  | none => none

/-! ## Helper routines that manipulate the job list -/

/-- The C function `clearjob`: clear the entries in a job struct. -/
def clearjob (job : job_t) : job_t :=
  { job with pid := 0, jid := 0, state := UNDEF, cmdline := "" }

/-- The C function `initjobs`: clear every slot. -/
def initjobs (jobs : List job_t) : List job_t :=
  jobs.map clearjob

/-- The C function `maxjid`: largest allocated job ID, starting from `max = 0`. -/
def maxjid (jobs : List job_t) : Int :=
  jobs.foldl (fun max j => if j.jid > max then j.jid else max) 0

/-- The C function `addjob`: returns the `int` result, the globals afterwards and
the text printed. -/
def addjob (g : Shell) (pid : Int) (state : Int) (cmdline : String) :
    Int × Shell × String :=
  if pid < 1 then (0, g, "")
  else
    match scan (fun j => j.pid == 0) g.jobs with
    | some i =>
      let job : job_t := { pid := pid, state := state, jid := g.nextjid, cmdline := cmdline }
      let next := wrapInt (g.nextjid + 1)
      let next := if next > (MAXJOBS : Int) then 1 else next
      (1, { g with jobs := g.jobs.set i job, nextjid := next },
        if g.verbose then
          "Added job [" ++ toString job.jid ++ "] " ++ toString job.pid ++ " "
            ++ job.cmdline ++ "\n"
        else "")
    | none => (0, g, "Tried to create too many jobs\n")

/-- The C function `deletejob`: returns the `int` result and the globals afterwards. -/
def deletejob (g : Shell) (pid : Int) : Int × Shell :=
  if pid < 1 then (0, g)
  else
    match scan (fun j => j.pid == pid) g.jobs with
    | some i =>
      let jobs := update g.jobs i clearjob
      (1, { g with jobs := jobs, nextjid := wrapInt (maxjid jobs + 1) })
    | none => (0, g)

/-- The C function `fgpid`: pid of the first slot in state `FG`, 0 if there is none. -/
def fgpid (jobs : List job_t) : Int :=
  match jobs.find? (fun j => j.state == FG) with
  | some j => j.pid
  | none => 0

/-- The C function `getjobpid`: the slot `&jobs[i]` found, as its index; `none` is
`NULL`. -/
def getjobpid (jobs : List job_t) (pid : Int) : Option Nat :=
  if pid < 1 then none else scan (fun j => j.pid == pid) jobs

/-- The C function `getjobjid`: the slot `&jobs[i]` found, as its index; `none` is
`NULL`. -/
def getjobjid (jobs : List job_t) (jid : Int) : Option Nat :=
  if jid < 1 then none else scan (fun j => j.jid == jid) jobs

/-- The C function `pid2jid`: job ID of the first slot holding `pid`, 0 if none. -/
def pid2jid (jobs : List job_t) (pid : Int) : Int :=
  if pid < 1 then 0
  else
    match jobs.find? (fun j => j.pid == pid) with
    | some j => j.jid
    | none => 0

/-- Loop of `listjobs` from slot index `i` on. -/
def listjobsFrom : Nat → List job_t → String
  | _, [] => ""
  | i, j :: rest =>
    (if j.pid != 0 then
      "[" ++ toString j.jid ++ "] (" ++ toString j.pid ++ ") "
        ++ (if j.state = BG then "Running "
            else if j.state = FG then "Foreground "
            else if j.state = ST then "Stopped "
            else "listjobs: Internal error: job[" ++ toString i ++ "].state="
              ++ toString j.state ++ " ")
        ++ j.cmdline
    else "")
    ++ listjobsFrom (i + 1) rest

/-- The C function `listjobs`: the text printed. -/
def listjobs (jobs : List job_t) : String :=
  listjobsFrom 0 jobs

/-! ## `eval`, `waitfg` and the SIGCHLD handler -/

/-- The part of `eval` after `fork()` has returned `pid` in the parent
(lines 182-195): register the job; a background launch also prints its line.
Returns the globals afterwards and the text printed. -/
def eval (g : Shell) (pid : Int) (bg : Bool) (cmdline : String) : Shell × String :=
  if !bg then
    let r := addjob g pid FG cmdline
    (r.2.1, r.2.2)
  else
    let r := addjob g pid BG cmdline
    (r.2.1, r.2.2 ++ "[" ++ toString (pid2jid r.2.1.jobs pid) ++ "] (" ++ toString pid
      ++ ") " ++ cmdline)

/-- Loop condition of `waitfg`: the main loop stays blocked while this holds. -/
def waitfg (jobs : List job_t) (pid : Int) : Bool :=
  pid == fgpid jobs

/-- What `waitpid(-1, &status, WNOHANG|WUNTRACED)` reports about a child: the three
cases told apart by `WIFEXITED`, `WIFSIGNALED` and `WIFSTOPPED`, with the exit
code or the signal number the status carries. -/
inductive WaitStatus where
  | exited (code : Nat)
  | signaled (sig : Nat)
  | stopped (sig : Nat)
deriving DecidableEq

/-- Status test `WIFEXITED`. -/
def WIFEXITED : WaitStatus → Bool
  | .exited _ => true
  | _ => false

/-- Status test `WIFSIGNALED`. -/
def WIFSIGNALED : WaitStatus → Bool
  | .signaled _ => true
  | _ => false

/-- Status test `WIFSTOPPED`. -/
def WIFSTOPPED : WaitStatus → Bool
  | .stopped _ => true
  | _ => false

/-- Body of the `while` loop of `sigchld_handler` for one reaped `(pid, status)`.
Returns the globals afterwards and the text printed; `none` is the dereference of
the `NULL` that `getjobpid` returned (`getjobpid(jobs, pid)->state = ST`). -/
def reap (g : Shell) (pid : Int) (status : WaitStatus) : Option (Shell × String) :=
  let g1 := if WIFEXITED status then (deletejob g pid).2 else g
  let r2 : Shell × String :=
    if WIFSIGNALED status then
      ((deletejob g1 pid).2,
        "Job [" ++ toString (pid2jid g1.jobs pid) ++ "] (" ++ toString pid
          ++ ") terminated by signal 2\n")
    else (g1, "")
  if WIFSTOPPED status then
    let out := r2.2 ++ "Job [" ++ toString (pid2jid r2.1.jobs pid) ++ "] (" ++ toString pid
      ++ ") stopped by signal 20\n"
    match getjobpid r2.1.jobs pid with
    | some i =>
      some ({ r2.1 with jobs := update r2.1.jobs i (fun j => { j with state := ST }) }, out)
    | none => none
  else some r2

/-- The C function `sigchld_handler`, given the results of its successive `waitpid`
calls; the loop ends at the first result that is not `> 0` (or when nothing is
pending). -/
def sigchld_handler (g : Shell) : List (Int × WaitStatus) → Option (Shell × String)
  | [] => some (g, "")
  | (pid, status) :: pending =>
    if pid > 0 then
      match reap g pid status with
      | some (g1, out) =>
        (sigchld_handler g1 pending).map (fun r => (r.1, out ++ r.2))
      | none => none
    else some (g, "")

/-- The globals when `main` enters its loop: `initjobs(jobs)` on the 16-slot array,
`nextjid = 1`, and `verbose` as set by the `-v` flag. -/
def initial (verbose : Bool) : Shell :=
  { jobs := initjobs (List.replicate MAXJOBS { pid := 0, jid := 0, state := 0, cmdline := "" }),
    nextjid := 1, verbose := verbose }

/-! ## The shell as a transition system -/

/-- The shell between two steps: its globals, and the pid `waitfg` is polling for
when the main loop is blocked inside `waitfg` (`none`: the main loop is free to
read the next command). -/
structure Sys where
  sh : Shell
  waiting : Option Int
deriving DecidableEq

/-- What can happen next: `eval` launches a foreground or a background job with
the pid `fork()` returned, `waitfg` tests its loop condition once, or the
`SIGCHLD` handler processes one `(pid, status)` that `waitpid` returned. -/
inductive Event where
  | launchFg (pid : Int) (cmdline : String)
  | launchBg (pid : Int) (cmdline : String)
  | poll
  | child (pid : Int) (status : WaitStatus)
deriving DecidableEq

/-- One transition; `none` when the event cannot happen in `s` (a command while the
main loop is still inside `waitfg`, a `waitpid` result that is not `> 0`, a poll
outside `waitfg`) or when the handler dereferences `NULL`. -/
def step (s : Sys) : Event → Option Sys
  | .launchFg pid cmdline =>
    match s.waiting with
    | none => some { sh := (eval s.sh pid false cmdline).1, waiting := some pid }
    | some _ => none
  | .launchBg pid cmdline =>
    match s.waiting with
    | none => some { sh := (eval s.sh pid true cmdline).1, waiting := none }
    | some _ => none
  | .poll =>
    match s.waiting with
    | some pid => if waitfg s.sh.jobs pid then some s else some { s with waiting := none }
    | none => none
  | .child pid status =>
    if pid > 0 then (reap s.sh pid status).map (fun r => { sh := r.1, waiting := s.waiting })
    else none

/-- Run a sequence of events. -/
def run (s : Sys) : List Event → Option Sys
  | [] => some s
  | e :: es =>
    match step s e with
    | some s1 => run s1 es
    | none => none

/-- Number of slots whose state is `FG`. -/
def countFG (jobs : List job_t) : Nat :=
  jobs.countP (fun j => j.state == FG)

/-- A call on the job table: `addjob` or `deletejob`. -/
inductive JobOp where
  | add (pid : Int) (state : Int) (cmdline : String)
  | del (pid : Int)
deriving DecidableEq

/-- The globals after the call. -/
def applyOp (g : Shell) : JobOp → Shell
  | .add pid state cmdline => (addjob g pid state cmdline).2.1
  | .del pid => (deletejob g pid).2

/-- The calls considered: `addjob` with a pid `>= 1` that no slot holds, and any
`deletejob`. -/
def admissible (g : Shell) : JobOp → Bool
  | .add pid _ _ => decide (1 ≤ pid) && g.jobs.all (fun j => j.pid != pid)
  | .del _ => true

/-- As `admissible`, and `addjob` is called only while `nextjid` is below `MAXJOBS`
(the counter does not wrap) or while at most one slot is free (the call fills
the table) and `nextjid` is below `INT_MAX`. -/
def admissibleNoWrap (g : Shell) : JobOp → Bool
  | .add pid state cmdline =>
    admissible g (.add pid state cmdline)
      && (decide (g.nextjid < (MAXJOBS : Int))
          || (decide (g.jobs.countP (fun j => j.pid == 0) ≤ 1)
              && decide (g.nextjid < INT_MAX)))
  | .del _ => true

/-- Run a sequence of calls, each of which has to satisfy `ok` when it is made. -/
def runOps (ok : Shell → JobOp → Bool) (g : Shell) : List JobOp → Option Shell
  | [] => some g
  | op :: ops => if ok g op then runOps ok (applyOp g op) ops else none

/-- No two occupied slots (`pid != 0`) hold the same jid. -/
def uniqueJids (jobs : List job_t) : Prop :=
  jobs.Pairwise (fun a b => a.pid ≠ 0 → b.pid ≠ 0 → a.jid ≠ b.jid)

instance (jobs : List job_t) : Decidable (uniqueJids jobs) := by
  unfold uniqueJids; infer_instance

/-- The state word of a listing entry: `Running `, `Foreground ` or `Stopped ` for
the three job states; for any other stored state value, the diagnostic that
`listjobs` prints for slot `i`. -/
def stateWord (i : Nat) (state : Int) : String :=
  if state = BG then "Running "
  else if state = FG then "Foreground "
  else if state = ST then "Stopped "
  else "listjobs: Internal error: job[" ++ toString i ++ "].state=" ++ toString state ++ " "

/-- One listing entry: `[jid] (pid) `, the state word, the command line. -/
def listingEntry (i : Nat) (j : job_t) : String :=
  "[" ++ toString j.jid ++ "] (" ++ toString j.pid ++ ") " ++ stateWord i j.state ++ j.cmdline

/-! ## Sample tables -/

/-- Sixteen background jobs with pids 100..115 and jids 1..16. -/
def fullJobs : List job_t :=
  (List.range 16).map (fun k =>
    { pid := 100 + (k : Int), jid := (k : Int) + 1, state := BG, cmdline := "sleep 100 &\n" })

/-- A shell whose table is full. -/
def fullShell : Shell :=
  { jobs := fullJobs, nextjid := 1, verbose := false }

/-- A 16-slot table: the given slots, then cleared ones. -/
def table (l : List job_t) : List job_t :=
  l ++ List.replicate (MAXJOBS - l.length) { pid := 0, jid := 0, state := UNDEF, cmdline := "" }

/-- A background job with pid 5. -/
def jobA : job_t := { pid := 5, jid := 1, state := BG, cmdline := "old &\n" }

/-- A table in which pid 5 sits in slot 0, ahead of the first empty slot. -/
def shellA : Shell :=
  { jobs := table [jobA], nextjid := 2, verbose := false }

/-- A table that holds pid 5 twice. -/
def shellTwice : Shell :=
  { jobs := table [jobA, { jobA with jid := 2 }], nextjid := 3, verbose := false }

/-- Fifteen `addjob` calls with pids 1..15, `deletejob` of pid 2, then `addjob` of
pid 16 and of pid 17. -/
def wrapOps : List JobOp :=
  (List.range 15).map (fun k => JobOp.add ((k : Int) + 1) BG "sleep 100 &\n")
    ++ [JobOp.del 2, JobOp.add 16 BG "sleep 100 &\n", JobOp.add 17 BG "sleep 100 &\n"]

/-- A foreground launch that is stopped, a background launch, and the exit of the
background job. -/
def someEvents : List Event :=
  [Event.launchFg 11 "vi\n", Event.child 11 (.stopped 20), Event.poll,
   Event.launchBg 12 "sleep 5 &\n", Event.child 12 (.exited 0)]

/-- Three `addjob` calls and one `deletejob`. -/
def fewOps : List JobOp :=
  [JobOp.add 1 BG "a &\n", JobOp.add 2 FG "b\n", JobOp.del 1, JobOp.add 3 BG "c &\n"]

/-- A table with jobs 1, 2 and 3 in its first three slots. -/
def shellB : Shell :=
  { jobs := table [{ pid := 7, jid := 1, state := BG, cmdline := "a &\n" },
                   { pid := 8, jid := 2, state := ST, cmdline := "b\n" },
                   { pid := 9, jid := 3, state := BG, cmdline := "c &\n" }],
    nextjid := 4, verbose := false }

/-! ## Facts about the table scans -/

theorem scan_eq_none_iff (p : job_t → Bool) (l : List job_t) :
    scan p l = none ↔ ∀ j ∈ l, p j = false := by
  induction l with
  | nil => simp [scan]
  | cons x rest ih =>
    by_cases hx : p x = true
    · simp [scan, hx]
    · simp [scan, hx, ih]

theorem scan_split (p : job_t → Bool) (l : List job_t) (i : Nat) (h : scan p l = some i) :
    ∃ a x b, l = a ++ x :: b ∧ a.length = i ∧ p x = true ∧ ∀ y ∈ a, p y = false := by
  induction l generalizing i with
  | nil => simp [scan] at h
  | cons x rest ih =>
    by_cases hx : p x = true
    · simp [scan, hx] at h
      exact ⟨[], x, rest, by simp, by simpa using h, hx, by simp⟩
    · simp [scan, hx] at h
      obtain ⟨k, hk, rfl⟩ := h
      obtain ⟨a, y, b, hl, hlen, hy, ha⟩ := ih k hk
      refine ⟨x :: a, y, b, by simp [hl], by simp [hlen], hy, ?_⟩
      intro z hz
      rcases List.mem_cons.mp hz with rfl | hz
      · simpa using hx
      · exact ha z hz

theorem scan_of_split (p : job_t → Bool) (a : List job_t) (x : job_t) (b : List job_t)
    (hx : p x = true) (ha : ∀ y ∈ a, p y = false) : scan p (a ++ x :: b) = some a.length := by
  induction a with
  | nil => simp [scan, hx]
  | cons y rest ih =>
    have hy : p y = false := ha y (by simp)
    have := ih (fun z hz => ha z (by simp [hz]))
    simp [scan, hy, this]

theorem set_split (a : List job_t) (x v : job_t) (b : List job_t) :
    (a ++ x :: b).set a.length v = a ++ v :: b := by
  induction a with
  | nil => simp
  | cons y rest ih => simp [ih]

theorem get_split (a : List job_t) (x : job_t) (b : List job_t) :
    (a ++ x :: b)[a.length]? = some x := by
  induction a with
  | nil => simp
  | cons y rest ih => simpa using ih

theorem update_split (a : List job_t) (x : job_t) (b : List job_t) (f : job_t → job_t) :
    update (a ++ x :: b) a.length f = a ++ f x :: b := by
  simp only [update, get_split, set_split]

theorem foldl_max_spec (l : List job_t) (acc : Int) :
    acc ≤ l.foldl (fun max j => if j.jid > max then j.jid else max) acc ∧
    (∀ j ∈ l, j.jid ≤ l.foldl (fun max j => if j.jid > max then j.jid else max) acc) ∧
    (l.foldl (fun max j => if j.jid > max then j.jid else max) acc = acc ∨
      ∃ j ∈ l, j.jid = l.foldl (fun max j => if j.jid > max then j.jid else max) acc) := by
  induction l generalizing acc with
  | nil => simp
  | cons y rest ih =>
    simp only [List.foldl_cons]
    obtain ⟨h1, h2, h3⟩ := ih (if y.jid > acc then y.jid else acc)
    by_cases hy : y.jid > acc
    · simp only [hy, if_true] at h1 h2 h3 ⊢
      refine ⟨by omega, ?_, ?_⟩
      · intro j hj
        rcases List.mem_cons.mp hj with rfl | hj
        · exact h1
        · exact h2 j hj
      · right
        rcases h3 with h3 | ⟨j, hj, hje⟩
        · exact ⟨y, by simp, h3.symm⟩
        · exact ⟨j, by simp [hj], hje⟩
    · simp only [hy, if_false] at h1 h2 h3 ⊢
      refine ⟨h1, ?_, ?_⟩
      · intro j hj
        rcases List.mem_cons.mp hj with rfl | hj
        · omega
        · exact h2 j hj
      · rcases h3 with h3 | ⟨j, hj, hje⟩
        · left; exact h3
        · right; exact ⟨j, by simp [hj], hje⟩

theorem wrapInt_of_range (x : Int) (hlo : -2147483648 ≤ x) (hhi : x ≤ 2147483647) :
    wrapInt x = x := by
  unfold wrapInt
  omega

theorem maxjid_spec (l : List job_t) :
    0 ≤ maxjid l ∧ (∀ j ∈ l, j.jid ≤ maxjid l) ∧ (maxjid l = 0 ∨ ∃ j ∈ l, j.jid = maxjid l) :=
  foldl_max_spec l 0

/-! ## Shape of the results of `addjob` and `deletejob` -/

theorem addjob_cases (g : Shell) (pid state : Int) (cmdline : String) :
    ((addjob g pid state cmdline).1 = 0 ∧ (addjob g pid state cmdline).2.1 = g ∧
        (pid < 1 ∨ ∀ j ∈ g.jobs, j.pid ≠ 0)) ∨
    (1 ≤ pid ∧ (addjob g pid state cmdline).1 = 1 ∧
      ∃ a x b, g.jobs = a ++ x :: b ∧ (∀ y ∈ a, y.pid ≠ 0) ∧ x.pid = 0 ∧
        (addjob g pid state cmdline).2.1 =
          { g with
            jobs := a ++ { pid := pid, jid := g.nextjid, state := state, cmdline := cmdline } :: b,
            nextjid := if wrapInt (g.nextjid + 1) > (MAXJOBS : Int) then 1
              else wrapInt (g.nextjid + 1) }) := by
  by_cases hpid : pid < 1
  · left; simp [addjob, hpid]
  · cases hs : scan (fun j => j.pid == 0) g.jobs with
    | none =>
      left
      have := (scan_eq_none_iff _ _).mp hs
      simp [addjob, hpid, hs]
      simpa using this
    | some i =>
      right
      obtain ⟨a, x, b, hl, hlen, hx, ha⟩ := scan_split _ _ _ hs
      refine ⟨by omega, by simp [addjob, hpid, hs], a, x, b, hl, ?_, by simpa using hx, ?_⟩
      · intro y hy; simpa using ha y hy
      · simp only [addjob, hpid, hs, if_false]
        rw [hl, ← hlen, set_split]

theorem deletejob_cases (g : Shell) (pid : Int) :
    (deletejob g pid = (0, g) ∧ (pid < 1 ∨ ∀ j ∈ g.jobs, j.pid ≠ pid)) ∨
    (1 ≤ pid ∧ (deletejob g pid).1 = 1 ∧
      ∃ a x b, g.jobs = a ++ x :: b ∧ (∀ y ∈ a, y.pid ≠ pid) ∧ x.pid = pid ∧
        scan (fun j => j.pid == pid) g.jobs = some a.length ∧
        (deletejob g pid).2 =
          { g with jobs := a ++ clearjob x :: b,
                   nextjid := wrapInt (maxjid (a ++ clearjob x :: b) + 1) }) := by
  by_cases hpid : pid < 1
  · left; simp [deletejob, hpid]
  · cases hs : scan (fun j => j.pid == pid) g.jobs with
    | none =>
      left
      have := (scan_eq_none_iff _ _).mp hs
      simp [deletejob, hpid, hs]
      simpa using this
    | some i =>
      right
      obtain ⟨a, x, b, hl, hlen, hx, ha⟩ := scan_split _ _ _ hs
      refine ⟨by omega, by simp [deletejob, hpid, hs], a, x, b, hl, ?_, by simpa using hx,
        by rw [hlen], ?_⟩
      · intro y hy; simpa using ha y hy
      · simp only [deletejob, hpid, hs, if_false]
        rw [hl, ← hlen, update_split]

/-! ## `addjob`, `deletejob`, `getjobpid` and `listjobs` -/

/-- C5. When every slot of the table is occupied (`pid != 0`), as when all 16 slots of
the shell's table are, `addjob` returns 0 for every pid, state and command line,
and every slot and `nextjid` are exactly as before. -/
theorem addjob_full_table (g : Shell) (pid state : Int) (cmdline : String)
    (hfull : ∀ j ∈ g.jobs, j.pid ≠ 0) :
    (addjob g pid state cmdline).1 = 0 ∧
      (addjob g pid state cmdline).2.1.jobs = g.jobs ∧
      (addjob g pid state cmdline).2.1.nextjid = g.nextjid := by
  rcases addjob_cases g pid state cmdline with ⟨h0, hg, _⟩ | ⟨_, _, a, x, b, hl, _, hx, _⟩
  · simp [h0, hg]
  · exact absurd hx (hfull x (by simp [hl]))

/-- Witness of C5: the full table `fullShell`, pid 200. -/
theorem addjob_full_table_witness :
    fullShell.jobs.length = MAXJOBS ∧ (∀ j ∈ fullShell.jobs, j.pid ≠ 0) ∧
      (addjob fullShell 200 BG "ls &\n").1 = 0 ∧
      (addjob fullShell 200 BG "ls &\n").2.1.jobs = fullShell.jobs ∧
      (addjob fullShell 200 BG "ls &\n").2.1.nextjid = fullShell.nextjid :=
  ⟨by decide, by decide,
    addjob_full_table fullShell 200 BG "ls &\n" (by decide)⟩

/-- C6. For a pid that no slot holds, and for every pid `<= 0`, `deletejob` returns 0 and
the table and `nextjid` are as before, so that a second call again returns 0 and
changes nothing. -/
theorem deletejob_absent_noop (g : Shell) (pid : Int)
    (h : pid < 1 ∨ ∀ j ∈ g.jobs, j.pid ≠ pid) :
    deletejob g pid = (0, g) ∧ deletejob (deletejob g pid).2 pid = (0, g) := by
  have key : deletejob g pid = (0, g) := by
    rcases deletejob_cases g pid with ⟨h0, _⟩ | ⟨hp, _, a, x, b, hl, _, hx, _, _⟩
    · exact h0
    · rcases h with h | h
      · omega
      · exact absurd hx (h x (by simp [hl]))
  simp [key]

/-- Witness of C6: pid 7 in a table that holds only pid 5. -/
theorem deletejob_absent_noop_witness :
    (∀ j ∈ shellA.jobs, j.pid ≠ 7) ∧
      deletejob shellA 7 = (0, shellA) ∧ deletejob (deletejob shellA 7).2 7 = (0, shellA) :=
  ⟨by decide, deletejob_absent_noop shellA 7 (Or.inr (by decide))⟩

/-- C3, as stated, fails: in `shellA` pid 5 already sits in slot 0, ahead of the first
empty slot; `addjob` of pid 5 in state `FG` returns 1, and `getjobpid` then finds
the old slot, whose state is `BG` and whose command line is the old one. -/
theorem addjob_getjobpid_counterexample :
    (addjob shellA 5 FG "new\n").1 = 1 ∧
      ¬ ∃ j, deref (addjob shellA 5 FG "new\n").2.1.jobs
            (getjobpid (addjob shellA 5 FG "new\n").2.1.jobs 5) = some j ∧
          j.pid = 5 ∧ j.state = FG ∧ j.cmdline = "new\n" := by
  refine ⟨by decide, ?_⟩
  have h : deref (addjob shellA 5 FG "new\n").2.1.jobs
      (getjobpid (addjob shellA 5 FG "new\n").2.1.jobs 5) = some jobA := by decide
  rintro ⟨j, hj, _, hst, _⟩
  rw [h] at hj
  cases hj
  revert hst
  decide

/-- C3, amended. If every slot that already holds `pid` has an empty slot before it (in
particular if no slot holds `pid`), `pid >= 1`, and `addjob` returns 1, then
`getjobpid` on the resulting table returns a slot whose pid, state and command
line are the ones that were added. -/
theorem addjob_getjobpid (g : Shell) (pid state : Int) (cmdline : String) (hpid : 1 ≤ pid)
    (hfresh : ∀ (k : Nat) (jk : job_t), g.jobs[k]? = some jk → jk.pid = pid →
      ∃ (i : Nat) (ji : job_t), i < k ∧ g.jobs[i]? = some ji ∧ ji.pid = 0)
    (hret : (addjob g pid state cmdline).1 = 1) :
    ∃ j, deref (addjob g pid state cmdline).2.1.jobs
          (getjobpid (addjob g pid state cmdline).2.1.jobs pid) = some j ∧
        j.pid = pid ∧ j.state = state ∧ j.cmdline = cmdline := by
  rcases addjob_cases g pid state cmdline with ⟨h0, _, _⟩ | ⟨_, _, a, x, b, hl, ha, hx, hg⟩
  · rw [h0] at hret; exact absurd hret (by decide)
  · have hnot : ∀ y ∈ a, (fun j : job_t => j.pid == pid) y = false := by
      intro y hy
      simp only [beq_eq_false_iff_ne, ne_eq]
      intro hyp
      obtain ⟨k, hk, hky⟩ := List.getElem_of_mem hy
      have hk1 : g.jobs[k]? = some y := by
        rw [hl, List.getElem?_append_left hk, List.getElem?_eq_getElem hk, hky]
      obtain ⟨i, ji, hik, hi, hji⟩ := hfresh k y hk1 hyp
      have hi1 : a[i]? = some ji := by
        rw [hl, List.getElem?_append_left (by omega)] at hi
        exact hi
      exact ha ji (List.getElem?_mem hi1) hji
    refine ⟨{ pid := pid, jid := g.nextjid, state := state, cmdline := cmdline }, ?_, rfl, rfl, rfl⟩
    have hp : ¬ pid < 1 := by omega
    rw [hg]
    simp only [getjobpid, hp, if_false]
    rw [scan_of_split _ a _ b (by simp) hnot]
    exact get_split a _ b

/-- Witness of C3 amended: pid 6 is not in `shellA`. -/
theorem addjob_getjobpid_witness :
    ∃ j, deref (addjob shellA 6 FG "new\n").2.1.jobs
          (getjobpid (addjob shellA 6 FG "new\n").2.1.jobs 6) = some j ∧
        j.pid = 6 ∧ j.state = FG ∧ j.cmdline = "new\n" :=
  addjob_getjobpid shellA 6 FG "new\n" (by decide)
    (by
      intro k jk hk hp
      have hno : ∀ j ∈ shellA.jobs, j.pid ≠ 6 := by decide
      exact absurd hp (hno jk (List.getElem?_mem hk)))
    (by decide)

/-- C4, as stated, fails: `shellTwice` holds pid 5 in two slots; `deletejob` clears the
first, and `getjobpid` then finds the second. -/
theorem deletejob_getjobpid_counterexample :
    getjobpid (deletejob shellTwice 5).2.jobs 5 = some 1 := by
  decide

/-- C4, amended. For a pid that is `<= 0` or that at most one slot holds, `getjobpid`
returns `NULL` on the table that `deletejob` leaves. -/
theorem deletejob_getjobpid (g : Shell) (pid : Int)
    (h : pid < 1 ∨ g.jobs.countP (fun j => j.pid == pid) ≤ 1) :
    getjobpid (deletejob g pid).2.jobs pid = none := by
  by_cases hpid : pid < 1
  · simp [getjobpid, hpid]
  · have hcount : g.jobs.countP (fun j => j.pid == pid) ≤ 1 := by
      rcases h with h | h
      · exact absurd h hpid
      · exact h
    simp only [getjobpid, hpid, if_false]
    rw [scan_eq_none_iff]
    rcases deletejob_cases g pid with ⟨h0, hor⟩ | ⟨_, _, a, x, b, hl, ha, hx, _, hg⟩
    · rcases hor with hlt | hno
      · exact absurd hlt hpid
      · intro j hj
        rw [h0] at hj
        simpa using hno j hj
    · rw [hg]
      have hxp : (fun j : job_t => j.pid == pid) x = true := by simp [hx]
      rw [hl, List.countP_append, List.countP_cons] at hcount
      simp only [hxp, if_true] at hcount
      have hb : b.countP (fun j => j.pid == pid) = 0 := by omega
      rw [List.countP_eq_zero] at hb
      intro j hj
      simp only [List.mem_append, List.mem_cons] at hj
      rcases hj with hj | rfl | hj
      · simpa using ha j hj
      · simp [clearjob]; omega
      · simpa using hb j hj

/-- Witness of C4 amended: pid 5 is held once in `shellA`. -/
theorem deletejob_getjobpid_witness :
    getjobpid (deletejob shellA 5).2.jobs 5 = none :=
  deletejob_getjobpid shellA 5 (Or.inr (by decide))

theorem listjobsFrom_eq (jobs : List job_t) (n : Nat) :
    listjobsFrom n jobs =
      (((jobs.enumFrom n).filter (fun e => e.2.pid != 0)).map
        (fun e => listingEntry e.1 e.2)).foldr (fun entry text => entry ++ text) "" := by
  induction jobs generalizing n with
  | nil => simp [listjobsFrom]
  | cons j rest ih =>
    by_cases hj : j.pid = 0
    · simp [listjobsFrom, List.enumFrom_cons, hj, ih (n + 1)]
    · simp [listjobsFrom, List.enumFrom_cons, hj, ih (n + 1), listingEntry, stateWord]

/-- C9. For every job table the text `listjobs` prints is the concatenation, in
increasing slot order, of one entry per occupied slot (`pid != 0`), each entry
being `[jid] (pid) ` followed by the state word and the command line; the state
word is `Running ` for `BG`, `Foreground ` for `FG` and `Stopped ` for `ST`; empty
slots contribute nothing, so a table without occupied slots prints nothing. -/
theorem listjobs_text :
    (∀ i : Nat, stateWord i BG = "Running " ∧ stateWord i FG = "Foreground " ∧
      stateWord i ST = "Stopped ") ∧
    (∀ (i : Nat) (j : job_t), listingEntry i j =
      "[" ++ toString j.jid ++ "] (" ++ toString j.pid ++ ") " ++ stateWord i j.state
        ++ j.cmdline) ∧
    (∀ jobs : List job_t, listjobs jobs =
      ((jobs.enum.filter (fun e => e.2.pid != 0)).map (fun e => listingEntry e.1 e.2)).foldr
        (fun entry text => entry ++ text) "") ∧
    (∀ jobs : List job_t, (∀ j ∈ jobs, j.pid = 0) → listjobs jobs = "") := by
  refine ⟨fun i => ⟨by simp [stateWord, BG], by simp [stateWord, FG, BG], by simp [stateWord, FG, BG, ST]⟩,
    fun i j => rfl, fun jobs => listjobsFrom_eq jobs 0, ?_⟩
  intro jobs hall
  have : ∀ n : Nat, listjobsFrom n jobs = "" := by
    induction jobs with
    | nil => intro n; simp [listjobsFrom]
    | cons j rest ih =>
      intro n
      simp [listjobsFrom, hall j (by simp), ih (fun j hj => hall j (by simp [hj])) (n + 1)]
  exact this 0

/-! ## The SIGCHLD handler -/

theorem reap_signaled (g : Shell) (pid : Int) (n : Nat) :
    reap g pid (.signaled n) =
      some ((deletejob g pid).2,
        "Job [" ++ toString (pid2jid g.jobs pid) ++ "] (" ++ toString pid
          ++ ") terminated by signal 2\n") := by
  simp [reap, WIFEXITED, WIFSIGNALED, WIFSTOPPED]

theorem reap_exited (g : Shell) (pid : Int) (n : Nat) :
    reap g pid (.exited n) = some ((deletejob g pid).2, "") := by
  simp [reap, WIFEXITED, WIFSIGNALED, WIFSTOPPED]

theorem reap_stopped (g : Shell) (pid : Int) (n : Nat) :
    reap g pid (.stopped n) =
      match getjobpid g.jobs pid with
      | some i =>
        some ({ g with jobs := update g.jobs i (fun j => { j with state := ST }) },
          "Job [" ++ toString (pid2jid g.jobs pid) ++ "] (" ++ toString pid
            ++ ") stopped by signal 20\n")
      | none => none := by
  simp [reap, WIFEXITED, WIFSIGNALED, WIFSTOPPED]

theorem reap_stopped_absent (g : Shell) (pid : Int) (n : Nat)
    (h : ∀ j ∈ g.jobs, j.pid ≠ pid) :
    getjobpid g.jobs pid = none ∧ reap g pid (.stopped n) = none := by
  have hnone : getjobpid g.jobs pid = none := by
    unfold getjobpid
    split
    · rfl
    · rw [scan_eq_none_iff]
      intro j hj
      simpa using h j hj
  exact ⟨hnone, by rw [reap_stopped, hnone]⟩

/-- C7: the code at a failing input. Pid 9 is job 3 of `shellB`; when the handler reaps
it with the status "killed by signal 9", the text printed names signal 2, not
signal 9 (the job is removed afterwards, as the claim says). -/
theorem reap_signaled_names_signal_2 :
    (reap shellB 9 (.signaled 9)).map (fun r => r.2)
        = some "Job [3] (9) terminated by signal 2\n" ∧
      (reap shellB 9 (.signaled 9)).map (fun r => r.2)
        ≠ some "Job [3] (9) terminated by signal 9\n" ∧
      (reap shellB 9 (.signaled 9)).map (fun r => getjobpid r.1.jobs 9) = some none := by
  decide

/-- C10: the code at a failing input. The table of `fullShell` is full, so `addjob` of
pid 200 returns 0 and the process runs untracked; when the handler reaps the
status "stopped by signal 19" for pid 200, `getjobpid` returns `NULL` and the
handler dereferences it: the handler does not complete. -/
theorem reap_stopped_untracked_faults :
    (addjob fullShell 200 BG "sleep 9 &\n").1 = 0 ∧
      (addjob fullShell 200 BG "sleep 9 &\n").2.1 = fullShell ∧
      getjobpid fullShell.jobs 200 = none ∧
      reap fullShell 200 (.stopped 19) = none ∧
      sigchld_handler fullShell [(200, .stopped 19)] = none := by
  decide

/-! ## Uniqueness of job ids -/

theorem uniqueJids_replace (a : List job_t) (x v : job_t) (b : List job_t)
    (h : uniqueJids (a ++ x :: b))
    (hv : ∀ w, w ∈ a ∨ w ∈ b → w.pid ≠ 0 → v.pid ≠ 0 → w.jid ≠ v.jid) :
    uniqueJids (a ++ v :: b) := by
  unfold uniqueJids at h ⊢
  rw [List.pairwise_append, List.pairwise_cons] at h ⊢
  obtain ⟨ha, ⟨_, hb⟩, hab⟩ := h
  refine ⟨ha, ⟨?_, hb⟩, ?_⟩
  · intro w hw hvp hwp heq
    exact hv w (Or.inr hw) hwp hvp heq.symm
  · intro u hu w hw
    rcases List.mem_cons.mp hw with rfl | hw
    · exact hv u (Or.inl hu)
    · exact hab u hu w (by simp [hw])

theorem jid_invariant_step (g : Shell) (op : JobOp)
    (huniq : uniqueJids g.jobs)
    (hpos : 1 ≤ g.nextjid)
    (hbound : ∀ j ∈ g.jobs, j.jid < 2147483647)
    (hlt : (∀ j ∈ g.jobs, j.pid ≠ 0) ∨ ∀ j ∈ g.jobs, j.pid ≠ 0 → j.jid < g.nextjid)
    (hop : admissibleNoWrap g op = true) :
    uniqueJids (applyOp g op).jobs ∧ 1 ≤ (applyOp g op).nextjid ∧
      (∀ j ∈ (applyOp g op).jobs, j.jid < 2147483647) ∧
      ((∀ j ∈ (applyOp g op).jobs, j.pid ≠ 0) ∨
        ∀ j ∈ (applyOp g op).jobs, j.pid ≠ 0 → j.jid < (applyOp g op).nextjid) := by
  cases op with
  | add pid state cmdline =>
    simp only [applyOp]
    rcases addjob_cases g pid state cmdline with ⟨_, hg, _⟩ | ⟨hpid, _, a, x, b, hl, ha, hx, hg⟩
    · rw [hg]; exact ⟨huniq, hpos, hbound, hlt⟩
    · have hlive : ∀ j ∈ g.jobs, j.pid ≠ 0 → j.jid < g.nextjid := by
        rcases hlt with hfull | hlive
        · exact absurd hx (hfull x (by simp [hl]))
        · exact hlive
      simp only [admissibleNoWrap, Bool.and_eq_true, Bool.or_eq_true, decide_eq_true_eq,
        MAXJOBS, INT_MAX] at hop
      have hnmax : g.nextjid < 2147483647 := by
        rcases hop.2 with hsmall | ⟨_, hmax⟩
        · have : ((16 : Nat) : Int) = 16 := rfl
          omega
        · exact hmax
      have hwrap : wrapInt (g.nextjid + 1) = g.nextjid + 1 :=
        wrapInt_of_range _ (by omega) (by omega)
      rw [hg]
      simp only [hwrap, MAXJOBS]
      have h16 : ((16 : Nat) : Int) = 16 := rfl
      refine ⟨?_, ?_, ?_, ?_⟩
      · rw [hl] at huniq
        refine uniqueJids_replace a x _ b huniq ?_
        intro w hw hwp _ heq
        have : w.jid < g.nextjid := hlive w (by rcases hw with hw | hw <;> simp [hl, hw]) hwp
        simp only at heq
        omega
      · split <;> omega
      · intro j hj
        simp only [List.mem_append, List.mem_cons] at hj
        rcases hj with hj | rfl | hj
        · exact hbound j (by simp [hl, hj])
        · exact hnmax
        · exact hbound j (by simp [hl, hj])
      · rcases hop.2 with hsmall | ⟨hone, _⟩
        · right
          intro j hj hjp
          have hnext : ¬ (g.nextjid + 1 > ((16 : Nat) : Int)) := by omega
          rw [if_neg hnext]
          simp only [List.mem_append, List.mem_cons] at hj
          rcases hj with hj | rfl | hj
          · have := hlive j (by simp [hl, hj]) hjp; omega
          · simp
          · have := hlive j (by simp [hl, hj]) hjp; omega
        · left
          have hxp : (fun j : job_t => j.pid == 0) x = true := by simp [hx]
          rw [hl, List.countP_append, List.countP_cons] at hone
          simp only [hxp, if_true] at hone
          have hb0 : b.countP (fun j => j.pid == 0) = 0 := by omega
          rw [List.countP_eq_zero] at hb0
          intro j hj
          simp only [List.mem_append, List.mem_cons] at hj
          rcases hj with hj | rfl | hj
          · exact ha j hj
          · simp only; omega
          · simpa using hb0 j hj
  | del pid =>
    simp only [applyOp]
    rcases deletejob_cases g pid with ⟨h0, _⟩ | ⟨_, _, a, x, b, hl, _, _, _, hg⟩
    · rw [h0]; exact ⟨huniq, hpos, hbound, hlt⟩
    · obtain ⟨m0, mall, mex⟩ := maxjid_spec (a ++ clearjob x :: b)
      have hb1 : ∀ j ∈ a ++ clearjob x :: b, j.jid < 2147483647 := by
        intro j hj
        simp only [List.mem_append, List.mem_cons] at hj
        rcases hj with hj | rfl | hj
        · exact hbound j (by simp [hl, hj])
        · simp [clearjob]
        · exact hbound j (by simp [hl, hj])
      have hmax : maxjid (a ++ clearjob x :: b) < 2147483647 := by
        rcases mex with mz | ⟨j, hj, hje⟩
        · omega
        · have := hb1 j hj; omega
      have hwrap : wrapInt (maxjid (a ++ clearjob x :: b) + 1)
          = maxjid (a ++ clearjob x :: b) + 1 :=
        wrapInt_of_range _ (by omega) (by omega)
      rw [hg]
      simp only [hwrap]
      refine ⟨?_, by omega, hb1, Or.inr ?_⟩
      · rw [hl] at huniq
        refine uniqueJids_replace a x _ b huniq ?_
        intro w _ _ hc
        exact absurd rfl hc
      · intro j hj _
        have := mall j hj
        omega

theorem jid_invariant_run (ops : List JobOp) (g g1 : Shell)
    (huniq : uniqueJids g.jobs)
    (hpos : 1 ≤ g.nextjid)
    (hbound : ∀ j ∈ g.jobs, j.jid < 2147483647)
    (hlt : (∀ j ∈ g.jobs, j.pid ≠ 0) ∨ ∀ j ∈ g.jobs, j.pid ≠ 0 → j.jid < g.nextjid)
    (hrun : runOps admissibleNoWrap g ops = some g1) :
    uniqueJids g1.jobs := by
  induction ops generalizing g with
  | nil =>
    simp only [runOps, Option.some.injEq] at hrun
    rw [← hrun]; exact huniq
  | cons op rest ih =>
    simp only [runOps] at hrun
    by_cases hop : admissibleNoWrap g op = true
    · simp only [hop, if_true] at hrun
      obtain ⟨h1, h2, h3, h4⟩ := jid_invariant_step g op huniq hpos hbound hlt hop
      exact ih (applyOp g op) h1 h2 h3 h4 hrun
    · simp [hop] at hrun

theorem initial_empty (v : Bool) : ∀ j ∈ (initial v).jobs, j.pid = 0 := by
  intro j hj
  simp only [initial, initjobs, List.mem_map] at hj
  obtain ⟨_, _, rfl⟩ := hj
  rfl

theorem initial_jid (v : Bool) : ∀ j ∈ (initial v).jobs, j.jid = 0 := by
  intro j hj
  simp only [initial, initjobs, List.mem_map] at hj
  obtain ⟨_, _, rfl⟩ := hj
  rfl

/-- C1: the code at a failing input. `wrapOps` is a sequence of admissible calls from the
initial table (every `addjob` has a pid `>= 1` that no slot holds): pids 1..15 get
jids 1..15; `deletejob(2)` sets `nextjid` to 16; pid 16 gets jid 16 and `nextjid`
wraps to 1; pid 17 then gets jid 1 in slot 15 while slot 0 still holds pid 1 with
jid 1, so two occupied slots hold the same jid. -/
theorem jids_repeat_after_wrap :
    ∃ g, runOps admissible (initial false) wrapOps = some g ∧
      g.jobs[0]? = some { pid := 1, jid := 1, state := BG, cmdline := "sleep 100 &\n" } ∧
      g.jobs[15]? = some { pid := 17, jid := 1, state := BG, cmdline := "sleep 100 &\n" } ∧
      ¬ uniqueJids g.jobs :=
  ⟨wrapOps.foldl applyOp (initial false), by decide, by decide, by decide, by decide⟩

/-- Where uniqueness does hold: in every state reached from the initial table
(`nextjid = 1`) by `addjob` calls (each with a pid `>= 1` that no slot holds, and
each made while `nextjid < MAXJOBS`, or while at most one slot is free and
`nextjid < INT_MAX`) and `deletejob` calls, no two occupied slots hold the same
jid. -/
theorem jids_unique_without_wrap (v : Bool) (ops : List JobOp) (g : Shell)
    (hrun : runOps admissibleNoWrap (initial v) ops = some g) :
    uniqueJids g.jobs := by
  refine jid_invariant_run ops (initial v) g ?_ (by simp [initial]) ?_ (Or.inr ?_) hrun
  · unfold uniqueJids
    rw [List.pairwise_iff_forall_sublist]
    intro a b hab ha
    exact absurd (initial_empty v a (hab.subset (by simp))) ha
  · intro j hj
    rw [initial_jid v j hj]
    decide
  · intro j hj hjp
    exact absurd (initial_empty v j hj) hjp

/-- The calls of `fewOps` are such a run. -/
theorem jids_unique_fewOps :
    runOps admissibleNoWrap (initial false) fewOps = some (fewOps.foldl applyOp (initial false)) ∧
      uniqueJids (fewOps.foldl applyOp (initial false)).jobs :=
  ⟨by decide, jids_unique_without_wrap false fewOps (fewOps.foldl applyOp (initial false)) (by decide)⟩

/-! ## At most one foreground job -/

theorem countFG_split (a : List job_t) (x : job_t) (b : List job_t) :
    countFG (a ++ x :: b) = countFG a + (if x.state = FG then 1 else 0) + countFG b := by
  simp only [countFG, List.countP_append, List.countP_cons, beq_iff_eq]
  omega

/-- Replacing a slot by one that is not in state `FG` adds no foreground slot. -/
theorem countFG_replace (a : List job_t) (x v : job_t) (b : List job_t) (hv : v.state ≠ FG) :
    countFG (a ++ v :: b) ≤ countFG (a ++ x :: b) ∧
      ∀ j ∈ a ++ v :: b, j.state = FG → j ∈ a ++ x :: b := by
  refine ⟨?_, ?_⟩
  · rw [countFG_split, countFG_split, if_neg hv]
    split <;> omega
  · intro j hj hjs
    simp only [List.mem_append, List.mem_cons] at hj ⊢
    rcases hj with hj | rfl | hj
    · exact Or.inl hj
    · exact absurd hjs hv
    · exact Or.inr (Or.inr hj)

theorem deletejob_FG (g : Shell) (pid : Int) :
    countFG (deletejob g pid).2.jobs ≤ countFG g.jobs ∧
      ∀ j ∈ (deletejob g pid).2.jobs, j.state = FG → j ∈ g.jobs := by
  rcases deletejob_cases g pid with ⟨h0, _⟩ | ⟨_, _, a, x, b, hl, _, _, _, hg⟩
  · rw [h0]; exact ⟨le_refl _, fun j hj _ => hj⟩
  · rw [hg, hl]
    exact countFG_replace a x (clearjob x) b (by simp [clearjob, UNDEF, FG])

theorem reap_FG (g g1 : Shell) (pid : Int) (status : WaitStatus) (out : String)
    (h : reap g pid status = some (g1, out)) :
    countFG g1.jobs ≤ countFG g.jobs ∧ ∀ j ∈ g1.jobs, j.state = FG → j ∈ g.jobs := by
  cases status with
  | exited n =>
    rw [reap_exited] at h
    simp only [Option.some.injEq, Prod.mk.injEq] at h
    rw [← h.1]; exact deletejob_FG g pid
  | signaled n =>
    rw [reap_signaled] at h
    simp only [Option.some.injEq, Prod.mk.injEq] at h
    rw [← h.1]; exact deletejob_FG g pid
  | stopped n =>
    rw [reap_stopped] at h
    cases hget : getjobpid g.jobs pid with
    | none => rw [hget] at h; simp at h
    | some i =>
      rw [hget] at h
      simp only [Option.some.injEq, Prod.mk.injEq] at h
      rw [← h.1]
      have hscan : scan (fun j => j.pid == pid) g.jobs = some i := by
        unfold getjobpid at hget
        split at hget
        · simp at hget
        · exact hget
      obtain ⟨a, x, b, hl, hlen, _, _⟩ := scan_split _ _ _ hscan
      simp only [hl, ← hlen, update_split]
      exact countFG_replace a x _ b (by simp [ST, FG])

theorem addjob_FG (g : Shell) (pid state : Int) (cmdline : String)
    (h0 : countFG g.jobs = 0) :
    (state ≠ FG → countFG (addjob g pid state cmdline).2.1.jobs = 0) ∧
      countFG (addjob g pid state cmdline).2.1.jobs ≤ 1 ∧
      ∀ j ∈ (addjob g pid state cmdline).2.1.jobs, j.state = FG → j.pid = pid := by
  rcases addjob_cases g pid state cmdline with ⟨_, hg, _⟩ | ⟨_, _, a, x, b, hl, _, _, hg⟩
  · rw [hg]
    refine ⟨fun _ => h0, by omega, ?_⟩
    intro j hj hjs
    have := List.countP_eq_zero.mp h0 j hj
    simp [hjs] at this
  · rw [hl, countFG_split] at h0
    have ha0 : countFG a = 0 := by omega
    have hb0 : countFG b = 0 := by omega
    rw [hg]
    simp only
    refine ⟨?_, ?_, ?_⟩
    · intro hst
      rw [countFG_split, ha0, hb0, if_neg hst]
    · rw [countFG_split, ha0, hb0]
      split <;> omega
    · intro j hj hjs
      simp only [List.mem_append, List.mem_cons] at hj
      rcases hj with hj | rfl | hj
      · have := List.countP_eq_zero.mp ha0 j hj
        simp [hjs] at this
      · rfl
      · have := List.countP_eq_zero.mp hb0 j hj
        simp [hjs] at this

/-- The invariant of the transition system: no slot is in state `FG` while the main
loop is free, and while it is inside `waitfg(p)` at most one is, with pid `p`. -/
theorem fg_invariant_step (s s1 : Sys) (e : Event)
    (hfree : s.waiting = none → countFG s.sh.jobs = 0)
    (hone : countFG s.sh.jobs ≤ 1)
    (hpid : ∀ p, s.waiting = some p → ∀ j ∈ s.sh.jobs, j.state = FG → j.pid = p)
    (hstep : step s e = some s1) :
    (s1.waiting = none → countFG s1.sh.jobs = 0) ∧ countFG s1.sh.jobs ≤ 1 ∧
      ∀ p, s1.waiting = some p → ∀ j ∈ s1.sh.jobs, j.state = FG → j.pid = p := by
  cases e with
  | launchFg pid cmdline =>
    cases hw : s.waiting with
    | some p => simp [step, hw] at hstep
    | none =>
      simp only [step, hw, Option.some.injEq] at hstep
      obtain ⟨_, h2, h3⟩ := addjob_FG s.sh pid FG cmdline (hfree hw)
      rw [← hstep]
      refine ⟨by simp, by simpa [eval] using h2, ?_⟩
      intro p hp j hj hjs
      simp only [Option.some.injEq] at hp
      rw [← hp]
      exact h3 j (by simpa [eval] using hj) hjs
  | launchBg pid cmdline =>
    cases hw : s.waiting with
    | some p => simp [step, hw] at hstep
    | none =>
      simp only [step, hw, Option.some.injEq] at hstep
      obtain ⟨h1, _, _⟩ := addjob_FG s.sh pid BG cmdline (hfree hw)
      have h1 := h1 (by decide)
      rw [← hstep]
      refine ⟨fun _ => by simpa [eval] using h1, by simp [eval, h1], ?_⟩
      intro p hp
      simp at hp
  | poll =>
    cases hw : s.waiting with
    | none => simp [step, hw] at hstep
    | some p =>
      simp only [step, hw] at hstep
      by_cases hwait : waitfg s.sh.jobs p = true
      · simp only [hwait, if_true, Option.some.injEq] at hstep
        rw [← hstep]; exact ⟨hfree, hone, hpid⟩
      · simp only [hwait, Bool.false_eq_true, if_false, Option.some.injEq] at hstep
        have hzero : countFG s.sh.jobs = 0 := by
          unfold countFG
          rw [List.countP_eq_zero]
          intro j hj hjs
          apply hwait
          cases hfind : s.sh.jobs.find? (fun j => j.state == FG) with
          | none =>
            have := List.find?_eq_none.mp hfind j hj
            exact absurd hjs this
          | some j1 =>
            have hj1s : j1.state = FG := by simpa using List.find?_some hfind
            have hj1p : j1.pid = p := hpid p hw j1 (List.mem_of_find?_eq_some hfind) hj1s
            simp [waitfg, fgpid, hfind, hj1p]
        rw [← hstep]
        refine ⟨fun _ => hzero, by simp only; omega, ?_⟩
        intro q hq
        simp at hq
  | child pid status =>
    simp only [step] at hstep
    by_cases hp : pid > 0
    · simp only [hp, if_true, Option.map_eq_some'] at hstep
      obtain ⟨r, hr, hs1⟩ := hstep
      obtain ⟨hle, hmem⟩ := reap_FG s.sh r.1 pid status r.2 hr
      rw [← hs1]
      refine ⟨?_, by simp only; omega, ?_⟩
      · intro hw
        have := hfree hw
        simp only; omega
      · intro p hw j hj hjs
        exact hpid p hw j (hmem j hj hjs) hjs
    · simp [hp] at hstep

/-- C2. Every job table reachable from the initialised one by the shell's transitions (a
foreground launch, after which no command is issued until `waitfg` sees
`fgpid(jobs) != pid`; a background launch; the handler reaping an exit, a kill or
a stop of a child) has at most one slot whose state is `FG`. -/
theorem at_most_one_foreground (v : Bool) (events : List Event) (s : Sys)
    (hrun : run { sh := initial v, waiting := none } events = some s) :
    countFG s.sh.jobs ≤ 1 := by
  have key : ∀ (evs : List Event) (s0 : Sys),
      (s0.waiting = none → countFG s0.sh.jobs = 0) → countFG s0.sh.jobs ≤ 1 →
      (∀ p, s0.waiting = some p → ∀ j ∈ s0.sh.jobs, j.state = FG → j.pid = p) →
      run s0 evs = some s → countFG s.sh.jobs ≤ 1 := by
    intro evs
    induction evs with
    | nil =>
      intro s0 _ h2 _ hr
      simp only [run, Option.some.injEq] at hr
      rw [← hr]; exact h2
    | cons e rest ih =>
      intro s0 h1 h2 h3 hr
      simp only [run] at hr
      cases hs : step s0 e with
      | none => simp [hs] at hr
      | some s1 =>
        simp only [hs] at hr
        obtain ⟨k1, k2, k3⟩ := fg_invariant_step s0 s1 e h1 h2 h3 hs
        exact ih s1 k1 k2 k3 hr
  have hinit : countFG (initial v).jobs = 0 := by
    cases v <;> decide
  exact key events _ (fun _ => hinit) (by simp only; omega) (by intro p hp; simp at hp) hrun

/-- Witness of C2: the run `someEvents`. -/
theorem at_most_one_foreground_witness :
    run { sh := initial false, waiting := none } someEvents
        = some { sh := { jobs := table [{ pid := 11, jid := 1, state := ST, cmdline := "vi\n" }],
                         nextjid := 2, verbose := false },
                 waiting := none } ∧
      countFG (table [{ pid := 11, jid := 1, state := ST, cmdline := "vi\n" }]) ≤ 1 :=
  ⟨by decide,
    at_most_one_foreground false someEvents
      { sh := { jobs := table [{ pid := 11, jid := 1, state := ST, cmdline := "vi\n" }],
                nextjid := 2, verbose := false },
        waiting := none }
      (by decide)⟩

end Tsh
